import Mathlib

/-!
Shallow embedding of scripts/detect_commented_code.py.

The script compiles the regular expression
  ^\s*#.*[a-zA-Z0-9_]+\s*\(.*\)
and, per line of each scanned file, tests it with re.match (a match anchored
at the start of the line, not at its end).  scan_file reads a file as a list
of lines, collects the stripped matching lines, prints them when there are
any, and returns True exactly when there are any.  scan_directory iterates
os.walk(directory), scanning every file whose name ends in .py, .js or .ts,
and returns whether any scanned file reported a match.  The main block exits
with status 1 when scan_directory returned True and 0 otherwise.

Modelling conventions:
- a line of text is a List Char; file contents are a List of lines, as
  produced by readlines (a trailing newline stays on the line);
- printing is modelled by returning the list of strings passed to print,
  in order;
- the character classes of the regular expression are modelled over their
  ASCII meaning: \s is the six ASCII whitespace characters and
  [a-zA-Z0-9_] is exactly the ASCII letters, digits and underscore;
- os.walk is modelled by its documented output: the list of
  (dirpath, filenames) pairs in top-down order.  Its dirnames component is
  unused by the script except to drive the traversal, which the model
  precomputes.  Per the Python documentation, errors from the underlying
  scandir call are ignored when the onerror argument is left at its default
  of None, so walking a root that does not exist or is not a directory
  yields no triples at all; the model takes the root as an Option, with
  none standing for such a root.
-/

namespace DetectCommentedCode

/-- Model of the ASCII part of the regex class \s: space, tab, newline,
carriage return, vertical tab, form feed. -/
def pySpace (c : Char) : Bool :=
  c = ' ' || c = '\t' || c = '\n' || c = '\r' || c = '\x0b' || c = '\x0c'

/-- Model of the regex class [a-zA-Z0-9_]. -/
def identChar (c : Char) : Bool :=
  c.isAlpha || c.isDigit || c = '_'

/-- Matcher for the tail regex \(.*\) after the opening parenthesis has been
consumed: search for a closing parenthesis, where the dot of .* cannot cross
a newline. -/
def closeAfter : List Char → Bool
  | [] => false
  | c :: r => if c = ')' then true else if c = '\n' then false else closeAfter r

/-- Matcher for \s*\(.*\) after the identifier character: skip whitespace
(which in the regex class \s includes newline), then require an opening
parenthesis followed by a closed one. -/
def afterIdent : List Char → Bool
  | [] => false
  | c :: r => if c = '(' then closeAfter r else if pySpace c then afterIdent r else false

/-- Matcher for .*[a-zA-Z0-9_]+\s*\(.*\) after the # has been consumed: try
every position reachable by .* (which cannot cross a newline) as the last
identifier character before the parenthesis; earlier identifier characters
of the + run are absorbed by the preceding .* . -/
def searchIdent : List Char → Bool
  | [] => false
  | c :: r => (identChar c && afterIdent r) || (!(c = '\n') && searchIdent r)

/-- Matcher for the anchored prefix ^\s*#: skip leading whitespace, then
require a # and hand over to searchIdent. -/
def matchAux : List Char → Bool
  | [] => false
  | c :: r => if c = '#' then searchIdent r else if pySpace c then matchAux r else false

/-- Embedding of commented_code_pattern.match(line): whether the compiled
regex matches at the start of the line. -/
def commented_code_match (line : List Char) : Bool :=
  matchAux line

/-- Embedding of Python str.strip() on a line (over the ASCII whitespace
model): remove leading and trailing whitespace. -/
def stripChars (l : List Char) : List Char :=
  ((l.dropWhile pySpace).reverse.dropWhile pySpace).reverse

/-- The commented_lines list built by the loop of scan_file: for each line in
order, append line.strip() when the pattern matches. -/
def collect (lines : List (List Char)) : List (List Char) :=
  lines.foldl (fun acc line => if commented_code_match line then acc ++ [stripChars line] else acc) []

/-- Embedding of scan_file: first component is the return value (True when
commented_lines is non-empty), second component is the list of strings
printed, in order (the header naming the file, then one arrow line per
collected match). -/
def scan_file (filepath : String) (lines : List (List Char)) : Bool × List String :=
  let commented_lines := collect lines
  if commented_lines.isEmpty then (false, [])
  else (true, ("\n Commented-out code found in: " ++ filepath) ::
    commented_lines.map (fun l => "  → " ++ l.asString))

/-- Embedding of str.endswith(suffix) for a single suffix. -/
def endswith (s suf : String) : Bool :=
  suf.data.isSuffixOf s.data

/-- Embedding of file.endswith((".py", ".js", ".ts")): the suffix filter of
scan_directory. -/
def qualifies (name : String) : Bool :=
  endswith name ".py" || endswith name ".js" || endswith name ".ts"

/-- A file as seen by the scanner: its name and its decoded content as a list
of lines. -/
structure FileEnt where
  name : String
  content : List (List Char)
deriving DecidableEq

/-- A directory tree: the files directly inside, and the named
subdirectories. -/
inductive DirTree : Type where
  | node : List FileEnt → List (String × DirTree) → DirTree

/-- Embedding of os.path.join for the two-argument call of scan_directory. -/
def pathJoin (root name : String) : String :=
  root ++ "/" ++ name

mutual

/-- The (dirpath, filenames) pairs in the order os.walk yields them for an
existing directory: top-down, root first, then each subdirectory in turn. -/
def walk (path : String) : DirTree → List (String × List FileEnt)
  | DirTree.node files subdirs => (path, files) :: walkSubdirs path subdirs

/-- Walk each named subdirectory in order. -/
def walkSubdirs (path : String) : List (String × DirTree) → List (String × List FileEnt)
  | [] => []
  | (name, d) :: rest => walk (pathJoin path name) d ++ walkSubdirs path rest

end

/-- Output of os.walk on a root given as an Option: a missing root (or a
root that is not a directory) makes the scandir call fail, and with the
default onerror=None the error is ignored, so the walk yields nothing. -/
def os_walk (path : String) : Option DirTree → List (String × List FileEnt)
  | none => []
  | some d => walk path d

/-- Body of the inner loop of scan_directory for one file: when the name
passes the suffix filter, run scan_file on the joined path and fold its
return value into has_error and its printed lines into the output. -/
def fileStep (root : String) (acc : Bool × List String) (f : FileEnt) : Bool × List String :=
  if qualifies f.name then
    let r := scan_file (pathJoin root f.name) f.content
    (acc.1 || r.1, acc.2 ++ r.2)
  else acc

/-- Body of the outer loop of scan_directory for one os.walk triple. -/
def entryStep (acc : Bool × List String) (e : String × List FileEnt) : Bool × List String :=
  e.2.foldl (fileStep e.1) acc

/-- The loop of scan_directory over the os.walk output: has_error starts
False and the printed output starts empty. -/
def scanEntries (entries : List (String × List FileEnt)) : Bool × List String :=
  entries.foldl entryStep (false, [])

/-- Embedding of scan_directory: walk the root and run the scanning loop.
First component is the returned has_error, second the printed output. -/
def scan_directory (path : String) (root : Option DirTree) : Bool × List String :=
  scanEntries (os_walk path root)

/-- Embedding of the __main__ block: print the start banner, scan the fixed
root, then print the failure banner and exit 1 when errors were found, or
print the success banner and exit 0.  First component is the exit status,
second the full printed output of the run. -/
def mainRun (root : Option DirTree) : Nat × List String :=
  let r := scan_directory "src" root
  if r.1 then (1, "🔍 Scanning for commented-out code..." :: r.2 ++
    ["\n Build failed because commented-out code was detected."])
  else (0, "🔍 Scanning for commented-out code..." :: r.2 ++
    [" No commented-out code found!"])

/-- Two consecutive runs of the program on the same unchanged tree (the
program never writes to the filesystem, so the tree seen by the second run
is the tree seen by the first). -/
def runTwice (root : Option DirTree) : (Nat × List String) × (Nat × List String) :=
  (mainRun root, mainRun root)

/-- The detection pattern written out as the specification sentence reads,
amended in one point: between the identifier characters and the opening
parenthesis the regex allows zero or more whitespace characters (the \s*
of the pattern), where the original sentence demanded immediacy.  A line
matches when it is leading whitespace w, then #, then anything a, then a
non-empty run d of identifier characters, then whitespace v, then an
opening parenthesis, then anything p, then a closing parenthesis, then an
arbitrary remainder q. -/
def SpecLineMatch (s : List Char) : Prop :=
  ∃ w a d v p q,
    s = w ++ '#' :: (a ++ d ++ v ++ '(' :: (p ++ ')' :: q)) ∧
    (∀ x ∈ w, pySpace x = true) ∧
    d ≠ [] ∧ (∀ x ∈ d, identChar x = true) ∧
    (∀ x ∈ v, pySpace x = true)

/-- Erase from an os.walk output everything the scanner may not look at:
keep only the files whose names pass the suffix filter.  Two walks with the
same restriction differ only in files the scanner never opens. -/
def restrictQualifying (entries : List (String × List FileEnt)) : List (String × List FileEnt) :=
  entries.map (fun e => (e.1, e.2.filter (fun f => qualifies f.name)))

/-! Helper lemmas about the scanning loops. -/

theorem collect_go (lines : List (List Char)) :
    ∀ acc : List (List Char),
      lines.foldl (fun acc line => if commented_code_match line then acc ++ [stripChars line] else acc) acc
        = acc ++ (lines.filter commented_code_match).map stripChars := by
  induction lines with
  | nil => intro acc; simp
  | cons l rest ih =>
    intro acc
    simp only [List.foldl_cons, List.filter_cons]
    cases h : commented_code_match l
    · simp only [h, Bool.false_eq_true, if_false, ih]
    · simp only [h, if_true, ih, List.map_cons, List.append_assoc, List.singleton_append]

theorem collect_eq_filter_map (lines : List (List Char)) :
    collect lines = (lines.filter commented_code_match).map stripChars := by
  simpa using collect_go lines []

theorem collect_eq_nil_iff (ls : List (List Char)) :
    collect ls = [] ↔ ∀ l ∈ ls, ¬ commented_code_match l = true := by
  rw [collect_eq_filter_map, List.map_eq_nil_iff, List.filter_eq_nil_iff]

theorem scan_file_fst_iff (p : String) (ls : List (List Char)) :
    (scan_file p ls).1 = true ↔ ∃ l ∈ ls, commented_code_match l = true := by
  rw [scan_file]
  by_cases h : collect ls = []
  · simp only [h, List.isEmpty_nil, if_true]
    simp only [Bool.false_eq_true, false_iff, not_exists]
    intro l hl
    exact (collect_eq_nil_iff ls).1 h l hl.1 hl.2
  · have hisEmpty : (collect ls).isEmpty = false := by
      cases hc : (collect ls).isEmpty
      · rfl
      · exact absurd (List.isEmpty_iff.1 hc) h
    simp only [hisEmpty, Bool.false_eq_true, if_false, true_iff]
    have hh := h
    rw [collect_eq_nil_iff] at hh
    push_neg at hh
    exact hh

theorem scan_file_snd_eq (p : String) (ls : List (List Char)) :
    (scan_file p ls).2 =
      (if ls.any commented_code_match then
        ("\n Commented-out code found in: " ++ p) ::
          ((ls.filter commented_code_match).map (fun l => "  → " ++ (stripChars l).asString))
      else []) := by
  rw [scan_file]
  by_cases h : collect ls = []
  · have hany : ls.any commented_code_match = false := by
      cases hh : ls.any commented_code_match
      · rfl
      · obtain ⟨l, hl, hm⟩ := List.any_eq_true.1 hh
        exact absurd hm ((collect_eq_nil_iff ls).1 h l hl)
    simp [h, hany]
  · have hany : ls.any commented_code_match = true := by
      have hh := h
      rw [collect_eq_nil_iff] at hh
      push_neg at hh
      exact List.any_eq_true.2 hh
    have hisEmpty : (collect ls).isEmpty = false := by
      cases hc : (collect ls).isEmpty
      · rfl
      · exact absurd (List.isEmpty_iff.1 hc) h
    simp only [hisEmpty, hany, Bool.false_eq_true, if_false, if_true]
    rw [collect_eq_filter_map, List.map_map]
    rfl

theorem filesFold (root : String) (files : List FileEnt) :
    ∀ acc : Bool × List String,
      files.foldl (fileStep root) acc
        = (acc.1 || files.any (fun f => qualifies f.name && (scan_file (pathJoin root f.name) f.content).1),
           acc.2 ++ (files.filter (fun f => qualifies f.name)).flatMap
             (fun f => (scan_file (pathJoin root f.name) f.content).2)) := by
  induction files with
  | nil => intro acc; simp
  | cons f rest ih =>
    intro acc
    simp only [List.foldl_cons, List.any_cons, List.filter_cons, fileStep]
    cases hq : qualifies f.name
    · simp only [hq, Bool.false_eq_true, if_false, ih, Bool.false_and, Bool.false_or]
    · simp only [hq, if_true, ih, Bool.true_and, List.flatMap_cons, Bool.or_assoc,
        List.append_assoc]

theorem entriesFold (entries : List (String × List FileEnt)) :
    ∀ acc : Bool × List String,
      entries.foldl entryStep acc
        = (acc.1 || entries.any (fun e => e.2.any
             (fun f => qualifies f.name && (scan_file (pathJoin e.1 f.name) f.content).1)),
           acc.2 ++ entries.flatMap (fun e => (e.2.filter (fun f => qualifies f.name)).flatMap
             (fun f => (scan_file (pathJoin e.1 f.name) f.content).2))) := by
  induction entries with
  | nil => intro acc; simp
  | cons e rest ih =>
    intro acc
    simp only [List.foldl_cons, List.any_cons, List.flatMap_cons, entryStep]
    rw [filesFold, ih]
    simp only [Bool.or_assoc, List.append_assoc]

theorem scanEntries_eq (entries : List (String × List FileEnt)) :
    scanEntries entries
      = (entries.any (fun e => e.2.any
           (fun f => qualifies f.name && (scan_file (pathJoin e.1 f.name) f.content).1)),
         entries.flatMap (fun e => (e.2.filter (fun f => qualifies f.name)).flatMap
           (fun f => (scan_file (pathJoin e.1 f.name) f.content).2))) := by
  rw [scanEntries, entriesFold]
  simp

theorem scan_directory_fst_iff (path : String) (root : Option DirTree) :
    (scan_directory path root).1 = true ↔
      ∃ e ∈ os_walk path root, ∃ f ∈ e.2, qualifies f.name = true ∧
        ∃ l ∈ f.content, commented_code_match l = true := by
  rw [scan_directory, scanEntries_eq]
  simp only [List.any_eq_true, Bool.and_eq_true]
  constructor
  · rintro ⟨e, he, f, hf, hq, hm⟩
    exact ⟨e, he, f, hf, hq, (scan_file_fst_iff _ _).1 hm⟩
  · rintro ⟨e, he, f, hf, hq, hm⟩
    exact ⟨e, he, f, hf, hq, (scan_file_fst_iff _ _).2 hm⟩

/-! Characterization of the four stages of the regex matcher as explicit
string decompositions. -/

theorem closeAfter_iff (l : List Char) :
    closeAfter l = true ↔ ∃ p q, l = p ++ ')' :: q ∧ '\n' ∉ p := by
  induction l with
  | nil =>
    simp only [closeAfter, Bool.false_eq_true, false_iff, not_exists]
    rintro p q ⟨hpq, -⟩
    have := congrArg List.length hpq
    simp at this
    omega
  | cons c r ih =>
    rw [closeAfter]
    by_cases hc : c = ')'
    · subst hc
      simp only [if_true, true_iff]
      exact ⟨[], r, rfl, List.not_mem_nil _⟩
    · rw [if_neg hc]
      by_cases hn : c = '\n'
      · subst hn
        rw [if_pos rfl]
        simp only [Bool.false_eq_true, false_iff, not_exists]
        rintro p q ⟨hpq, hnp⟩
        cases p with
        | nil =>
          rw [List.nil_append] at hpq
          injection hpq with h1 _
          exact hc h1
        | cons x p' =>
          rw [List.cons_append] at hpq
          injection hpq with h1 _
          exact hnp (by rw [← h1]; exact List.mem_cons_self _ _)
      · rw [if_neg hn, ih]
        constructor
        · rintro ⟨p, q, hpq, hnp⟩
          refine ⟨c :: p, q, by rw [hpq, List.cons_append], ?_⟩
          intro hm
          rcases List.mem_cons.1 hm with h | h
          · exact hn h.symm
          · exact hnp h
        · rintro ⟨p, q, hpq, hnp⟩
          cases p with
          | nil =>
            rw [List.nil_append] at hpq
            injection hpq with h1 _
            exact absurd h1 hc
          | cons x p' =>
            rw [List.cons_append] at hpq
            injection hpq with h1 h2
            exact ⟨p', q, h2, fun hm => hnp (List.mem_cons.2 (Or.inr hm))⟩

theorem afterIdent_iff (l : List Char) :
    afterIdent l = true ↔
      ∃ v r, l = v ++ '(' :: r ∧ (∀ x ∈ v, pySpace x = true) ∧ closeAfter r = true := by
  induction l with
  | nil =>
    simp only [afterIdent, Bool.false_eq_true, false_iff, not_exists]
    rintro v r ⟨hvr, -, -⟩
    have := congrArg List.length hvr
    simp at this
    omega
  | cons c t ih =>
    rw [afterIdent]
    by_cases hc : c = '('
    · subst hc
      rw [if_pos rfl]
      constructor
      · intro h
        exact ⟨[], t, rfl, fun x hx => absurd hx (List.not_mem_nil x), h⟩
      · rintro ⟨v, r, hvr, hv, hcl⟩
        cases v with
        | nil =>
          rw [List.nil_append] at hvr
          injection hvr with _ h2
          rw [h2]
          exact hcl
        | cons x v' =>
          rw [List.cons_append] at hvr
          injection hvr with h1 _
          have : pySpace '(' = true := by rw [h1]; exact hv x (List.mem_cons_self _ _)
          exact absurd this (by decide)
    · rw [if_neg hc]
      by_cases hs : pySpace c = true
      · rw [if_pos hs, ih]
        constructor
        · rintro ⟨v, r, hvr, hv, hcl⟩
          refine ⟨c :: v, r, by rw [hvr, List.cons_append], ?_, hcl⟩
          intro x hx
          rcases List.mem_cons.1 hx with h | h
          · rw [h]; exact hs
          · exact hv x h
        · rintro ⟨v, r, hvr, hv, hcl⟩
          cases v with
          | nil =>
            rw [List.nil_append] at hvr
            injection hvr with h1 _
            exact absurd h1 hc
          | cons x v' =>
            rw [List.cons_append] at hvr
            injection hvr with h1 h2
            exact ⟨v', r, h2, fun y hy => hv y (List.mem_cons.2 (Or.inr hy)), hcl⟩
      · rw [if_neg hs]
        simp only [Bool.false_eq_true, false_iff, not_exists]
        rintro v r ⟨hvr, hv, -⟩
        cases v with
        | nil =>
          rw [List.nil_append] at hvr
          injection hvr with h1 _
          exact hc h1
        | cons x v' =>
          rw [List.cons_append] at hvr
          injection hvr with h1 _
          exact hs (by rw [h1]; exact hv x (List.mem_cons_self _ _))

theorem searchIdent_iff (l : List Char) :
    searchIdent l = true ↔
      ∃ a c r, l = a ++ c :: r ∧ '\n' ∉ a ∧ identChar c = true ∧ afterIdent r = true := by
  induction l with
  | nil =>
    simp only [searchIdent, Bool.false_eq_true, false_iff, not_exists]
    rintro a c r ⟨har, -, -, -⟩
    have := congrArg List.length har
    simp at this
    omega
  | cons c t ih =>
    rw [searchIdent]
    simp only [Bool.or_eq_true, Bool.and_eq_true, Bool.not_eq_true', decide_eq_false_iff_not]
    constructor
    · rintro (⟨hid, haf⟩ | ⟨hne, hs⟩)
      · exact ⟨[], c, t, rfl, List.not_mem_nil _, hid, haf⟩
      · obtain ⟨a, c', r, hcr, hna, hid, haf⟩ := ih.1 hs
        refine ⟨c :: a, c', r, by rw [hcr, List.cons_append], ?_, hid, haf⟩
        intro hm
        rcases List.mem_cons.1 hm with h | h
        · exact hne h.symm
        · exact hna h
    · rintro ⟨a, c', r, hcr, hna, hid, haf⟩
      cases a with
      | nil =>
        rw [List.nil_append] at hcr
        injection hcr with h1 h2
        exact Or.inl ⟨h1 ▸ hid, h2 ▸ haf⟩
      | cons x a' =>
        rw [List.cons_append] at hcr
        injection hcr with h1 h2
        refine Or.inr ⟨?_, ih.2 ⟨a', c', r, h2, fun hm => hna (List.mem_cons.2 (Or.inr hm)), hid, haf⟩⟩
        intro hcn
        exact hna (List.mem_cons.2 (Or.inl (by rw [← hcn, h1])))

theorem matchAux_iff (s : List Char) :
    matchAux s = true ↔
      ∃ w t, s = w ++ '#' :: t ∧ (∀ x ∈ w, pySpace x = true) ∧ searchIdent t = true := by
  induction s with
  | nil =>
    simp only [matchAux, Bool.false_eq_true, false_iff, not_exists]
    rintro w t ⟨hwt, -, -⟩
    have := congrArg List.length hwt
    simp at this
    omega
  | cons c r ih =>
    rw [matchAux]
    by_cases hc : c = '#'
    · subst hc
      rw [if_pos rfl]
      constructor
      · intro h
        exact ⟨[], r, rfl, fun x hx => absurd hx (List.not_mem_nil x), h⟩
      · rintro ⟨w, t, hwt, hw, hs⟩
        cases w with
        | nil =>
          rw [List.nil_append] at hwt
          injection hwt with _ h2
          rw [h2]
          exact hs
        | cons x w' =>
          rw [List.cons_append] at hwt
          injection hwt with h1 _
          have : pySpace '#' = true := by rw [h1]; exact hw x (List.mem_cons_self _ _)
          exact absurd this (by decide)
    · rw [if_neg hc]
      by_cases hs : pySpace c = true
      · rw [if_pos hs, ih]
        constructor
        · rintro ⟨w, t, hwt, hw, hsr⟩
          refine ⟨c :: w, t, by rw [hwt, List.cons_append], ?_, hsr⟩
          intro x hx
          rcases List.mem_cons.1 hx with h | h
          · rw [h]; exact hs
          · exact hw x h
        · rintro ⟨w, t, hwt, hw, hsr⟩
          cases w with
          | nil =>
            rw [List.nil_append] at hwt
            injection hwt with h1 _
            exact absurd h1 hc
          | cons x w' =>
            rw [List.cons_append] at hwt
            injection hwt with h1 h2
            exact ⟨w', t, h2, fun y hy => hw y (List.mem_cons.2 (Or.inr hy)), hsr⟩
      · rw [if_neg hs]
        simp only [Bool.false_eq_true, false_iff, not_exists]
        rintro w t ⟨hwt, hw, -⟩
        cases w with
        | nil =>
          rw [List.nil_append] at hwt
          injection hwt with h1 _
          exact hc h1
        | cons x w' =>
          rw [List.cons_append] at hwt
          injection hwt with h1 _
          exact hs (by rw [h1]; exact hw x (List.mem_cons_self _ _))

theorem match_iff_specLineMatch (s : List Char) (h : '\n' ∉ s) :
    commented_code_match s = true ↔ SpecLineMatch s := by
  rw [commented_code_match, matchAux_iff]
  constructor
  · rintro ⟨w, t, hs, hw, hsearch⟩
    obtain ⟨a, c, r, ht, -, hid, haf⟩ := (searchIdent_iff t).1 hsearch
    obtain ⟨v, r', hr, hv, hcl⟩ := (afterIdent_iff r).1 haf
    obtain ⟨p, q, hr', -⟩ := (closeAfter_iff r').1 hcl
    refine ⟨w, a, [c], v, p, q, ?_, hw, by simp, by simp [hid], hv⟩
    rw [hs, ht, hr, hr']
    simp
  · rintro ⟨w, a, d, v, p, q, hs, hw, hdne, hd, hv⟩
    obtain hemp | ⟨d', c, hdc⟩ := List.eq_nil_or_concat d
    · exact absurd hemp hdne
    rw [List.concat_eq_append] at hdc
    subst hdc
    have hnp : '\n' ∉ p := by
      intro hm
      apply h
      rw [hs]
      simp [hm]
    have hna : '\n' ∉ a ++ d' := by
      intro hm
      apply h
      rw [hs]
      rcases List.mem_append.1 hm with hm | hm
      · simp [hm]
      · simp [hm]
    have hid : identChar c = true := hd c (by simp)
    refine ⟨w, a ++ d' ++ (c :: (v ++ '(' :: (p ++ ')' :: q))), ?_, hw, ?_⟩
    · rw [hs]
      simp
    · rw [searchIdent_iff]
      refine ⟨a ++ d', c, v ++ '(' :: (p ++ ')' :: q), by simp, hna, hid, ?_⟩
      rw [afterIdent_iff]
      refine ⟨v, p ++ ')' :: q, rfl, hv, ?_⟩
      rw [closeAfter_iff]
      exact ⟨p, q, rfl, hnp⟩

/-! The matcher ignores a trailing newline, the one newline a line produced
by readlines can contain. -/

theorem closeAfter_append_newline (l : List Char) (h : '\n' ∉ l) :
    closeAfter (l ++ ['\n']) = closeAfter l := by
  induction l with
  | nil => decide
  | cons c t ih =>
    have hc : ¬ c = ')' → ¬ c = '\n' := fun _ hh => h (by rw [hh]; exact List.mem_cons_self _ _)
    have ht : '\n' ∉ t := fun hh => h (List.mem_cons.2 (Or.inr hh))
    rw [List.cons_append, closeAfter, closeAfter]
    by_cases h1 : c = ')'
    · rw [if_pos h1, if_pos h1]
    · rw [if_neg h1, if_neg h1, if_neg (hc h1), if_neg (hc h1), ih ht]

theorem afterIdent_append_newline (l : List Char) (h : '\n' ∉ l) :
    afterIdent (l ++ ['\n']) = afterIdent l := by
  induction l with
  | nil => decide
  | cons c t ih =>
    have ht : '\n' ∉ t := fun hh => h (List.mem_cons.2 (Or.inr hh))
    rw [List.cons_append, afterIdent, afterIdent]
    by_cases h1 : c = '('
    · rw [if_pos h1, if_pos h1, closeAfter_append_newline t ht]
    · rw [if_neg h1, if_neg h1]
      by_cases h2 : pySpace c = true
      · rw [if_pos h2, if_pos h2, ih ht]
      · rw [if_neg h2, if_neg h2]

theorem searchIdent_append_newline (l : List Char) (h : '\n' ∉ l) :
    searchIdent (l ++ ['\n']) = searchIdent l := by
  induction l with
  | nil => decide
  | cons c t ih =>
    have ht : '\n' ∉ t := fun hh => h (List.mem_cons.2 (Or.inr hh))
    rw [List.cons_append, searchIdent, searchIdent, afterIdent_append_newline t ht, ih ht]

theorem matchAux_append_newline (s : List Char) (h : '\n' ∉ s) :
    matchAux (s ++ ['\n']) = matchAux s := by
  induction s with
  | nil => decide
  | cons c t ih =>
    have ht : '\n' ∉ t := fun hh => h (List.mem_cons.2 (Or.inr hh))
    rw [List.cons_append, matchAux, matchAux]
    by_cases h1 : c = '#'
    · rw [if_pos h1, if_pos h1, searchIdent_append_newline t ht]
    · rw [if_neg h1, if_neg h1]
      by_cases h2 : pySpace c = true
      · rw [if_pos h2, if_pos h2, ih ht]
      · rw [if_neg h2, if_neg h2]

theorem any_filter_and {α : Type} (q p : α → Bool) (l : List α) :
    (l.filter q).any (fun x => q x && p x) = l.any (fun x => q x && p x) := by
  induction l with
  | nil => rfl
  | cons x t ih =>
    rw [List.filter_cons]
    by_cases hq : q x = true
    · rw [if_pos hq, List.any_cons, List.any_cons, ih]
    · have hqf : q x = false := by
        cases hqq : q x
        · rfl
        · exact absurd hqq hq
      rw [if_neg hq, List.any_cons, ih, hqf, Bool.false_and, Bool.false_or]

theorem scanEntries_restrict (es : List (String × List FileEnt)) :
    scanEntries (restrictQualifying es) = scanEntries es := by
  rw [scanEntries_eq, scanEntries_eq, restrictQualifying, List.any_map, List.flatMap_map]
  refine congrArg₂ Prod.mk ?_ ?_
  · refine congrArg (List.any es) ?_
    funext e
    simp only [Function.comp_apply]
    exact any_filter_and (fun f => qualifies f.name)
      (fun f => (scan_file (pathJoin e.1 f.name) f.content).1) e.2
  · refine congrArg (List.flatMap es) ?_
    funext e
    simp only [List.filter_filter]
    refine congrArg₂ List.flatMap (List.filter_congr ?_) rfl
    intro x _
    rw [Bool.and_self]

theorem mainRun_fst (root : Option DirTree) :
    (mainRun root).1 = (if (scan_directory "src" root).1 = true then 1 else 0) := by
  cases h : (scan_directory "src" root).1 <;> simp [mainRun, h]

/-! The ten claims. -/

/-- C1, counterexample to the claim as stated: with a root that does not
exist (or is not a directory), the run terminates with exit status 0 — it
does not abort with a propagated filesystem error. -/
theorem C1_counterexample :
    (mainRun none).1 = 0 ∧ (scan_directory "src" none).1 = false := by
  exact ⟨rfl, rfl⟩

/-- C1, amended: if the root does not exist or is not a directory, os.walk
(whose default onerror = None ignores the scandir error) yields no entries,
so scan_directory returns false with no per-file output and the run exits
with status 0; no filesystem error is propagated. -/
theorem C1_missing_root_silent (path : String) :
    scan_directory path none = (false, []) ∧ (mainRun none).1 = 0 ∧
      (mainRun none).2 =
        ["🔍 Scanning for commented-out code...", " No commented-out code found!"] := by
  exact ⟨rfl, rfl, rfl⟩

/-- C2, counterexample to the claim as stated: the claim asserts that a line
with whitespace between the identifier and the opening parenthesis — its own
example being # total (a, b) — does not match, but the regex contains \s*
between the identifier characters and the parenthesis, so the line matches. -/
theorem C2_counterexample :
    commented_code_match ("# total (a, b)".data) = true := by
  decide

/-- C2, amended: a line (no interior newline) matches the detection test
exactly when, from the start, after zero or more whitespace characters, a #
appears, then any characters, then one or more identifier characters, then
zero or more whitespace characters, then an opening parenthesis, then any
characters, then a closing parenthesis anywhere later in the line; a
trailing newline left on the line by readlines does not affect the test. -/
theorem C2_pattern_characterization (s : List Char) (h : '\n' ∉ s) :
    (commented_code_match s = true ↔ SpecLineMatch s) ∧
      commented_code_match (s ++ ['\n']) = commented_code_match s :=
  ⟨match_iff_specLineMatch s h, matchAux_append_newline s h⟩

/-- C2, witness: the characterization evaluated on the concrete line
"  # foo(bar)". -/
theorem C2_pattern_characterization_witness :
    '\n' ∉ ("  # foo(bar)".data) ∧
      ((commented_code_match ("  # foo(bar)".data) = true ↔
          SpecLineMatch ("  # foo(bar)".data)) ∧
        commented_code_match ("  # foo(bar)".data ++ ['\n'])
          = commented_code_match ("  # foo(bar)".data)) :=
  ⟨by decide, C2_pattern_characterization ("  # foo(bar)".data) (by decide)⟩

/-- C3, counterexample to the claim as stated: the return value of scan_file
is not the ordered sequence of matched lines — two files with different
matched sequences produce the same return value (the boolean True). -/
theorem C3_counterexample :
    (scan_file "src/x.py" ["# a(b)\n".data, "# c(d)\n".data]).1
        = (scan_file "src/x.py" ["# a(b)\n".data]).1 ∧
      collect ["# a(b)\n".data, "# c(d)\n".data] ≠ collect ["# a(b)\n".data] := by
  decide

/-- C3, amended: scan_file returns a boolean — true exactly when some line
of the file matches the detection pattern — and the ordered sequence of
matched lines, each trimmed of surrounding whitespace, is what scan_file
prints (after the header naming the file) rather than what it returns;
nothing is printed when the file is clean. -/
theorem C3_scan_file_output (p : String) (ls : List (List Char)) :
    ((scan_file p ls).1 = true ↔ ∃ l ∈ ls, commented_code_match l = true) ∧
      (scan_file p ls).2 =
        (if ls.any commented_code_match then
          ("\n Commented-out code found in: " ++ p) ::
            ((ls.filter commented_code_match).map (fun l => "  → " ++ (stripChars l).asString))
        else []) :=
  ⟨scan_file_fst_iff p ls, scan_file_snd_eq p ls⟩

/-- C4: for every directory tree, scan_directory returns true if and only if
at least one scanned file — a file under the root whose name ends in a
recognized suffix — has at least one line matching the detection pattern. -/
theorem C4_scan_directory_iff (path : String) (root : DirTree) :
    (scan_directory path (some root)).1 = true ↔
      ∃ e ∈ walk path root, ∃ f ∈ e.2, qualifies f.name = true ∧
        ∃ l ∈ f.content, commented_code_match l = true := by
  simpa [os_walk] using scan_directory_fst_iff path (some root)

/-- C5: the run exits with status 0 exactly when no scanned file has a
matching line, with status 1 exactly when some scanned file has one, and no
other exit status is produced. -/
theorem C5_exit_code (root : Option DirTree) :
    ((mainRun root).1 = 0 ↔
        ¬ ∃ e ∈ os_walk "src" root, ∃ f ∈ e.2, qualifies f.name = true ∧
            ∃ l ∈ f.content, commented_code_match l = true) ∧
      ((mainRun root).1 = 1 ↔
        ∃ e ∈ os_walk "src" root, ∃ f ∈ e.2, qualifies f.name = true ∧
            ∃ l ∈ f.content, commented_code_match l = true) ∧
      ((mainRun root).1 = 0 ∨ (mainRun root).1 = 1) := by
  have hiff := scan_directory_fst_iff "src" root
  rw [mainRun_fst]
  cases h : (scan_directory "src" root).1
  · rw [h] at hiff
    simp only [Bool.false_eq_true, false_iff] at hiff
    rw [if_neg (by simp : ¬ (false = true))]
    exact ⟨⟨fun _ => hiff, fun _ => rfl⟩,
      ⟨fun h01 => absurd h01 (by omega), fun hE => absurd hE hiff⟩, Or.inl rfl⟩
  · rw [h] at hiff
    simp only [true_iff] at hiff
    rw [if_pos rfl]
    exact ⟨⟨fun h10 => absurd h10 (by omega), fun hnE => absurd hiff hnE⟩,
      ⟨fun _ => hiff, fun _ => rfl⟩, Or.inr rfl⟩

/-- C6: files whose names do not end in a recognized suffix are never
scanned — two os.walk outputs that agree after erasing every non-qualifying
file produce the same scan result and the same printed output, so the
content (and even the presence) of a non-qualifying file has no effect. -/
theorem C6_nonqualifying_no_effect (es₁ es₂ : List (String × List FileEnt))
    (h : restrictQualifying es₁ = restrictQualifying es₂) :
    scanEntries es₁ = scanEntries es₂ := by
  rw [← scanEntries_restrict es₁, ← scanEntries_restrict es₂, h]

/-- C6, witness: a tree whose only file is d.txt containing a matching line
scans exactly like an empty tree. -/
theorem C6_nonqualifying_no_effect_witness :
    restrictQualifying [("src", [⟨"d.txt", ["# total(a,b)".data]⟩])]
        = restrictQualifying [("src", [])] ∧
      scanEntries [("src", [⟨"d.txt", ["# total(a,b)".data]⟩])]
        = scanEntries [("src", [])] :=
  ⟨by decide, C6_nonqualifying_no_effect _ _ (by decide)⟩

/-- C7: the lines collected by scan_file are precisely the matching lines of
the file, in their order of appearance, each trimmed of surrounding
whitespace. -/
theorem C7_matches_ordered_trimmed (lines : List (List Char)) :
    collect lines = (lines.filter commented_code_match).map stripChars :=
  collect_eq_filter_map lines

/-- C8: the whole run is a deterministic function of the filesystem
contents — running it twice on the same unchanged tree yields the same
printed output and the same exit status both times. -/
theorem C8_deterministic (root : Option DirTree) :
    (runTwice root).1 = (runTwice root).2 ∧ (runTwice root).1 = mainRun root :=
  ⟨rfl, rfl⟩

/-- C9: scan_directory never short-circuits — its printed output is the
concatenation, over every walked directory and every qualifying file in it,
of that file's scan_file output, so every offending file's header and
matched lines appear, not only the first offender's. -/
theorem C9_no_short_circuit (path : String) (root : Option DirTree) :
    (scan_directory path root).2 =
      (os_walk path root).flatMap (fun e => (e.2.filter (fun f => qualifies f.name)).flatMap
        (fun f => (scan_file (pathJoin e.1 f.name) f.content).2)) := by
  rw [scan_directory, scanEntries_eq]

/-- C10: the suffix test is a case-sensitive string-suffix check — a name
qualifies exactly when it ends in the exact characters .py, .js or .ts, and
uppercase or mixed-case variants such as A.PY or b.Js never qualify. -/
theorem C10_suffix_case_sensitive :
    (∀ name : String, qualifies name = true ↔
        (∃ s, name.data = s ++ ".py".data) ∨ (∃ s, name.data = s ++ ".js".data) ∨
          (∃ s, name.data = s ++ ".ts".data)) ∧
      qualifies "A.PY" = false ∧ qualifies "b.Js" = false := by
  refine ⟨?_, by decide, by decide⟩
  intro name
  rw [qualifies, endswith, endswith, endswith]
  simp only [Bool.or_eq_true, List.isSuffixOf_iff_suffix]
  constructor
  · rintro ((⟨t, ht⟩ | ⟨t, ht⟩) | ⟨t, ht⟩)
    · exact Or.inl ⟨t, ht.symm⟩
    · exact Or.inr (Or.inl ⟨t, ht.symm⟩)
    · exact Or.inr (Or.inr ⟨t, ht.symm⟩)
  · rintro (⟨t, ht⟩ | ⟨t, ht⟩ | ⟨t, ht⟩)
    · exact Or.inl (Or.inl ⟨t, ht.symm⟩)
    · exact Or.inl (Or.inr ⟨t, ht.symm⟩)
    · exact Or.inr ⟨t, ht.symm⟩

end DetectCommentedCode
